import Mathlib

set_option maxHeartbeats 1000000
set_option synthInstance.maxHeartbeats 1000000
set_option synthInstance.maxSize 2048
set_option maxRecDepth 8000

/-!
Verification of the two pure algorithms of `src/calculate-simhash/main.py`:
the SimHash fingerprint computation (`calculate_simhash`, delegating to the
`simhash` library's accumulation, modelled below from the specification since
the library source is not part of this repository) and the capture compressor
(`compress_captures`).

Python strings are modelled through their character lists, Python `dict`s by
insertion-ordered association lists, and exceptions by `Except`.
-/

/-! ## Character and digit-string helpers -/

/-- Numeric value of a decimal digit character (ASCII code minus 48). -/
def digitVal (c : Char) : Nat := c.toNat - 48

/-- Decimal-digit test on a character (ASCII codes 48 to 57). -/
def isDigitChar (c : Char) : Bool := 48 ≤ c.toNat && c.toNat ≤ 57

/-- Value of a most-significant-first decimal digit string. -/
def digitsToNat (l : List Char) : Nat := l.foldl (fun a c => 10 * a + digitVal c) 0

/-- Fixed-width decimal rendering of a number, most significant digit first. -/
def natToDigitChars : Nat → Nat → List Char
  | 0, _ => []
  | k + 1, n => natToDigitChars k (n / 10) ++ [Char.ofNat (48 + n % 10)]

/-- Python slice `s[a:b]` for `a ≤ b` (clamped at the string length). -/
def pySlice (s : String) (a b : Nat) : String := String.mk ((s.data.drop a).take (b - a))

/-- Python slice `s[a:]`. -/
def pyDropFrom (s : String) (a : Nat) : String := String.mk (s.data.drop a)

/-- ASCII whitespace stripped by Python `int()` before parsing: space, tab,
newline, carriage return, vertical tab, form feed.  `int()` also strips some
Unicode space characters, which no theorem below depends on. -/
def isPySpace (c : Char) : Bool :=
  c.toNat = 32 || c.toNat = 9 || c.toNat = 10 || c.toNat = 13 ||
  c.toNat = 11 || c.toNat = 12

/-- Both-ends whitespace stripping, as Python `int()` applies to its literal. -/
def stripPySpace (l : List Char) : List Char :=
  ((l.dropWhile isPySpace).reverse.dropWhile isPySpace).reverse

/-- Digit tail of a Python integer literal: decimal digits in which a single
underscore may sit between two digits (`1_2` parses as 12; `1__2`, `1_` and
`_1` are rejected, as `int()` rejects them). -/
def pyDigitsCore : List Char → Nat → Option Nat
  | [], acc => some acc
  | c :: rest, acc =>
      if isDigitChar c then pyDigitsCore rest (10 * acc + digitVal c)
      else if c = '_' then
        match rest with
        | d :: rest2 =>
            if isDigitChar d then pyDigitsCore rest2 (10 * acc + digitVal d) else none
        | [] => none
      else none

/-- Body of a Python integer literal after the optional sign: it must start
with a digit. -/
def pyIntBody : List Char → Option Nat
  | [] => none
  | c :: rest => if isDigitChar c then pyDigitsCore rest (digitVal c) else none

/-- Python `int(s)`, `ValueError` modelled as `none`: whitespace is stripped,
one optional `+` or `-` sign is accepted, and the digits may carry interior
underscores.  Out of scope of this Nat-valued model, and relied on by no
theorem below: `int()` would additionally accept Unicode digits and Unicode
whitespace, and returns a negative number for `-`-signed nonzero literals
(here `none`). -/
def pyInt (s : String) : Option Nat :=
  match stripPySpace s.data with
  | [] => none
  | c :: rest =>
      if c = '+' then pyIntBody rest
      else if c = '-' then
        match pyIntBody rest with
        | some 0 => some 0
        | _ => none
      else pyIntBody (c :: rest)

/-! ## Byte-level and base64 helpers -/

/-- Python `int.from_bytes(bs, byteorder='big')`. -/
def bytesToNatBE (bs : List Nat) : Nat := bs.foldl (fun a b => 256 * a + b) 0

/-- Python `v.to_bytes(k, byteorder='little')`: the `k` bytes, least significant
first (meaningful for `v < 256 ^ k`, where `to_bytes` does not overflow). -/
def natToBytesLE : Nat → Nat → List Nat
  | _, 0 => []
  | v, k + 1 => v % 256 :: natToBytesLE (v / 256) k

/-- Little-endian byte decoding, the inverse of `natToBytesLE`. -/
def bytesToNatLE (bs : List Nat) : Nat := bs.foldr (fun b a => b + 256 * a) 0

/-- Character of one base64 sextet (standard alphabet). -/
def b64Char (n : Nat) : Char :=
  if n < 26 then Char.ofNat (65 + n)
  else if n < 52 then Char.ofNat (97 + (n - 26))
  else if n < 62 then Char.ofNat (48 + (n - 52))
  else if n = 62 then '+'
  else '/'

/-- Standard base64 encoding of a byte list, with `=` padding. -/
def b64EncodeList : List Nat → List Char
  | b0 :: b1 :: b2 :: rest =>
      b64Char (b0 / 4) :: b64Char (b0 % 4 * 16 + b1 / 16) ::
      b64Char (b1 % 16 * 4 + b2 / 64) :: b64Char (b2 % 64) :: b64EncodeList rest
  | [b0, b1] => [b64Char (b0 / 4), b64Char (b0 % 4 * 16 + b1 / 16), b64Char (b1 % 16 * 4), '=']
  | [b0] => [b64Char (b0 / 4), b64Char (b0 % 4 * 16), '=', '=']
  | [] => []

/-- Python `base64.b64encode(bs).decode('utf-8')`. -/
def base64Encode (bs : List Nat) : String := String.mk (b64EncodeList bs)

/-! ## The fingerprint engine

`calculate_simhash` calls `Simhash(features, simhash_size, hashfunc=...).value`
from the external `simhash` package, whose source is not part of this
repository; its accumulation loop is modelled from the spec (§4.1). -/

/-- Modelled from the spec: `custom_hash_function` (main.py line 12) wraps the
external `hashlib.blake2b` digest, converting it big-endian to an integer; the
digest itself is an opaque deterministic byte function passed as `blake2b`. -/
def custom_hash_function (blake2b : String → List Nat) (x : String) : Nat :=
  bytesToNatBE (blake2b x)

/-- Modelled from the spec (§4.1 step 2): one pass of the per-feature update
over the accumulator vector, at bit positions `i, i+1, ...`: add the weight `w`
where bit `i` of the hash `h` is set, subtract it where it is clear. -/
def accumBits (h : Nat) (w : Nat) : List Int → Nat → List Int
  | [], _ => []
  | a :: rest, i =>
      (if h.testBit i then a + (w : Int) else a - (w : Int)) :: accumBits h w rest (i + 1)

/-- Modelled from the spec (§4.1 steps 1–2): the accumulator vector of `B`
signed integers after folding all `(token, weight)` features. -/
def simhashAccum (hashfn : String → Nat) (B : Nat) (features : List (String × Nat)) : List Int :=
  features.foldl (fun v p => accumBits (hashfn p.1) p.2 v 0) (List.replicate B 0)

/-- Modelled from the spec (§4.1 steps 3–4): the fingerprint — bit `i` is set
exactly when accumulator entry `i` is positive, bit 0 least significant.  This
is the `Simhash(...).value` computation invoked by `calculate_simhash`. -/
def simhashCompute (hashfn : String → Nat) (B : Nat) (features : List (String × Nat)) : Nat :=
  (List.range B).foldl
    (fun ans i => if 0 < (simhashAccum hashfn B features).getD i 0 then ans + 2 ^ i else ans) 0

/-- `calculate_simhash` (main.py line 34): SimHash of the feature mapping with
the BLAKE2b-based custom hash function. -/
def calculate_simhash (blake2b : String → List Nat) (features : List (String × Nat))
    (simhash_size : Nat) : Nat :=
  simhashCompute (custom_hash_function blake2b) simhash_size features

/-- Reference definition of SimHash, following the claim wording: per-bit
signed accumulator as a sum over the feature list. -/
def referenceAcc (hashfn : String → Nat) (features : List (String × Nat)) (i : Nat) : Int :=
  (features.map (fun p => if (hashfn p.1).testBit i then (p.2 : Int) else -(p.2 : Int))).sum

/-- Reference definition of SimHash, following the claim wording: output bit `i`
is 1 exactly when the accumulator at `i` is positive (a tie yields 0), bits
assembled with bit 0 least significant. -/
def referenceSimhash (hashfn : String → Nat) (B : Nat) (features : List (String × Nat)) : Nat :=
  ((List.range B).map (fun i => if 0 < referenceAcc hashfn features i then 2 ^ i else 0)).sum

/-! ## Per-file processing (`process_html_file`)

The file read, HTML feature extraction and wall-clock timing of
`process_html_file` are external effects outside the spec's scope; the result
record is modelled on the fields the spec's contracts concern (feature count,
encoded fingerprint, error outcome), taking the already-extracted feature
mapping as input. -/

/-- The per-file result record of `process_html_file` (main.py line 40),
restricted to its data fields. -/
structure FileResult where
  feature_count : Nat
  simhash : String
  error : Option String
deriving DecidableEq, Repr

/-- The pure core of `process_html_file` (main.py lines 61–87): given the
extracted features, record the feature count; if no features were extracted set
the error outcome and produce no fingerprint; otherwise compute the SimHash and
encode it as 8 little-endian bytes in base64.  `to_bytes(8, 'little')` raises
`OverflowError` on values of 2^64 or more (unreachable for the default width
64), caught by the surrounding handler. -/
def processHtmlFeatures (blake2b : String → List Nat) (simhash_size : Nat)
    (features : List (String × Nat)) : FileResult :=
  if features.isEmpty then
    { feature_count := features.length, simhash := "", error := some "No features extracted" }
  else
    let simhash_value := calculate_simhash blake2b features simhash_size
    if simhash_value < 2 ^ 64 then
      { feature_count := features.length,
        simhash := base64Encode (natToBytesLE simhash_value 8), error := none }
    else
      { feature_count := features.length, simhash := "",
        error := some "int too big to convert" }

/-! ## The capture compressor (`compress_captures`) -/

/-- One parsed capture: date fields, time-of-day suffix, and assigned hash id
(one entry of the `grouped[year][month][day]` lists of main.py line 135). -/
structure CapRec where
  year : Nat
  month : Nat
  day : Nat
  hms : String
  hid : Nat
deriving DecidableEq, Repr

/-- The three `int(...)` field extractions of main.py lines 128–130, in
evaluation order; the first failing slice raises `ValueError`, whose message
quotes the offending literal (Python renders it with `repr`, which for the
plain strings arising here wraps it in single quotes). -/
def tsFields (ts : String) : Except String (Nat × Nat × Nat) :=
  match pyInt (pySlice ts 0 4) with
  | none => .error ("invalid literal for int() with base 10: \x27" ++ pySlice ts 0 4 ++ "\x27")
  | some year =>
    match pyInt (pySlice ts 4 6) with
    | none => .error ("invalid literal for int() with base 10: \x27" ++ pySlice ts 4 6 ++ "\x27")
    | some month =>
      match pyInt (pySlice ts 6 8) with
      | none => .error ("invalid literal for int() with base 10: \x27" ++ pySlice ts 6 8 ++ "\x27")
      | some day => .ok (year, month, day)

/-- The parsed `(year, month, day)` of a timestamp (meaningful when `tsFields`
succeeds). -/
def tsYMD (ts : String) : Nat × Nat × Nat :=
  match tsFields ts with
  | .ok t => t
  | .error _ => (0, 0, 0)

/-- The `ValueError` message a timestamp raises (meaningful when `tsFields`
fails). -/
def tsErrMsg (ts : String) : String :=
  match tsFields ts with
  | .error e => e
  | .ok _ => ""

/-- An ASCII letter — a character Python `int()` always rejects (it is neither
whitespace, nor a sign, nor an underscore, nor a decimal digit of any script). -/
def isAsciiLetter (c : Char) : Bool :=
  (65 ≤ c.toNat && c.toNat ≤ 90) || (97 ≤ c.toNat && c.toNat ≤ 122)

/-- A slice `int()` certainly accepts: nonempty, all ASCII digits. -/
def digitSlice (s : String) : Bool := !s.data.isEmpty && s.data.all isDigitChar

/-- A slice `int()` certainly rejects: empty, or containing an ASCII letter. -/
def doomedSlice (s : String) : Bool := s.data.isEmpty || s.data.any isAsciiLetter

/-- All three date slices of the timestamp are nonempty digit strings, the
spec's precondition domain (every well-formed timestamp satisfies this). -/
def digitTs (ts : String) : Bool :=
  digitSlice (pySlice ts 0 4) && digitSlice (pySlice ts 4 6) && digitSlice (pySlice ts 6 8)

/-- Each date slice is clearly accepted or clearly rejected by `int()` — the
domain on which the model and `int()` agree slice by slice. -/
def plainSlices (ts : String) : Bool :=
  (digitSlice (pySlice ts 0 4) || doomedSlice (pySlice ts 0 4)) &&
  (digitSlice (pySlice ts 4 6) || doomedSlice (pySlice ts 4 6)) &&
  (digitSlice (pySlice ts 6 8) || doomedSlice (pySlice ts 6 8))

/-- Some date slice of the timestamp is certainly rejected by `int()`. -/
def badTs (ts : String) : Bool :=
  doomedSlice (pySlice ts 0 4) || doomedSlice (pySlice ts 4 6) || doomedSlice (pySlice ts 6 8)

/-- Python `hash_dict.get(simhash, default)` on the insertion-ordered dict,
modelled as first-match lookup in an association list. -/
def dictGet (x : String) : List (String × Nat) → Option Nat
  | [] => none
  | p :: rest => if p.1 = x then some p.2 else dictGet x rest

/-- Index of the first occurrence of a string in a list (the id a fingerprint
receives in `hashes`). -/
def idxOf (x : String) : List String → Nat
  | [] => 0
  | s :: rest => if s = x then 0 else idxOf x rest + 1

/-- The `for ts, simhash in captures` loop of main.py lines 127–135: thread the
insertion-ordered `hash_dict` and the parsed records (the `grouped` content in
encounter order); a `ValueError` from `int()` aborts the whole call. -/
def compressLoop : List (String × String) → List (String × Nat) → List CapRec →
    Except String (List (String × Nat) × List CapRec)
  | [], hash_dict, recs => .ok (hash_dict, recs)
  | c :: rest, hash_dict, recs =>
    match tsFields c.1 with
    | .error e => .error e
    | .ok (year, month, day) =>
      let hms := pyDropFrom c.1 8
      let hash_id := (dictGet c.2 hash_dict).getD hash_dict.length
      let hash_dict' :=
        if (dictGet c.2 hash_dict).isSome then hash_dict else hash_dict ++ [(c.2, hash_id)]
      compressLoop rest hash_dict' (recs ++ [⟨year, month, day, hms, hash_id⟩])

/-- Insert a key into a strictly ascending key list, keeping it strictly
ascending and duplicate-free. -/
def insertKey (x : Nat) : List Nat → List Nat
  | [] => [x]
  | y :: ys => if x < y then x :: y :: ys else if x = y then y :: ys else y :: insertKey x ys

/-- `sorted(keys)` over the distinct values of a key list: the strictly
ascending list of its elements. -/
def sortedKeys (l : List Nat) : List Nat := l.foldl (fun acc x => insertKey x acc) []

/-- Insertion step of `sorted(hash_dict.items(), key=lambda x: x[1])`. -/
def insertBySnd (p : String × Nat) : List (String × Nat) → List (String × Nat)
  | [] => [p]
  | q :: qs => if p.2 < q.2 then p :: q :: qs else q :: insertBySnd p qs

/-- `sorted(hash_dict.items(), key=lambda x: x[1])` (main.py line 148). -/
def sortBySnd (l : List (String × Nat)) : List (String × Nat) := l.foldr insertBySnd []

/-- The `grouped[year][month][day]` list: the `(hms, hash_id)` pairs of the
records with that date, in encounter order (appending to the auto-vivified
nested dict lists is modelled by filtering the in-order record list). -/
def dayPairs (recs : List CapRec) (y m d : Nat) : List (String × Nat) :=
  (recs.filter (fun r => decide (r.year = y ∧ r.month = m ∧ r.day = d))).map
    (fun r => (r.hms, r.hid))

/-- A day node of the emitted tree: `[day, [hms, id], ...]`. -/
abbrev DayEntry := Nat × List (String × Nat)

/-- A month node of the emitted tree: `[month, day_entry, ...]`. -/
abbrev MonthEntry := Nat × List DayEntry

/-- A year node of the emitted tree: `[year, month_entry, ...]`. -/
abbrev YearEntry := Nat × List MonthEntry

/-- The nested `new_captures` construction of main.py lines 137–146: years,
months within a year and days within a month in ascending sorted order, each
day carrying its pairs in encounter order. -/
def buildTree (recs : List CapRec) : List YearEntry :=
  (sortedKeys (recs.map (·.year))).map (fun y =>
    (y, (sortedKeys ((recs.filter (fun r => decide (r.year = y))).map (·.month))).map (fun m =>
      (m, (sortedKeys ((recs.filter (fun r => decide (r.year = y ∧ r.month = m))).map
            (·.day))).map (fun d =>
        (d, dayPairs recs y m d))))))

/-- The result of `compress_captures`: the date tree and the fingerprint
dictionary. -/
structure CompressedArchive where
  captures : List YearEntry
  hashes : List String
deriving DecidableEq, Repr

/-- `compress_captures` (main.py lines 122–154). -/
def compress_captures (captures : List (String × String)) : Except String CompressedArchive :=
  match compressLoop captures [] [] with
  | .error e => .error e
  | .ok (hash_dict, recs) =>
    .ok { captures := buildTree recs,
          hashes := (sortBySnd hash_dict).map Prod.fst }

/-- Key lookup in an emitted tree level (the nodes carry distinct keys). -/
def treeGet {β : Type} (k : Nat) : List (Nat × β) → Option β
  | [] => none
  | p :: rest => if p.1 = k then some p.2 else treeGet k rest

/-- The `(hms, id)` list a tree holds for a given date (empty when the date is
absent). -/
def treeDay (t : List YearEntry) (y m d : Nat) : List (String × Nat) :=
  match treeGet y t with
  | none => []
  | some ms =>
    match treeGet m ms with
    | none => []
    | some ds => (treeGet d ds).getD []

/-- First-seen-order deduplication, following the spec wording of §4.2 step 1:
a new fingerprint is appended when first encountered, so its position is the
size of the mapping at that moment. -/
def firstSeen (l : List String) : List String :=
  l.foldl (fun acc s => if s ∈ acc then acc else acc ++ [s]) []

/-- `firstSeen` continued from an already-collected prefix of distinct
fingerprints. -/
def firstSeenFrom (fs : List String) (l : List String) : List String :=
  l.foldl (fun acc s => if s ∈ acc then acc else acc ++ [s]) fs

/-- The association list pairing each string with its position, starting at
`k` — the shape of `hash_dict` during the loop. -/
def withIds : List String → Nat → List (String × Nat)
  | [], _ => []
  | s :: rest, k => (s, k) :: withIds rest (k + 1)

/-- The parsed record a capture contributes, with its id read off a given
fingerprint dictionary. -/
def mkRecFrom (hs : List String) (c : String × String) : CapRec :=
  { year := (tsYMD c.1).1, month := (tsYMD c.1).2.1, day := (tsYMD c.1).2.2,
    hms := pyDropFrom c.1 8, hid := idxOf c.2 hs }

/-- Modelled from the spec (§4.2, reconstruction contract — no reconstruction
code exists in src/): walk year, month, day in the tree and emit
`(year+month+day+suffix, hashes[id])`, the date fields rendered in the fixed
widths of the `YYYYMMDDHHMMSS` format. -/
def reconstruct (a : CompressedArchive) : List (String × String) :=
  a.captures.flatMap (fun ye =>
    ye.2.flatMap (fun me =>
      me.2.flatMap (fun de =>
        de.2.map (fun p =>
          (String.mk (natToDigitChars 4 ye.1 ++ natToDigitChars 2 me.1 ++
             natToDigitChars 2 de.1) ++ p.1,
           a.hashes.getD p.2 "")))))

/-! ## Lemmas: accumulator evaluation -/

theorem accumBits_length (h w : Nat) :
    ∀ (v : List Int) (i : Nat), (accumBits h w v i).length = v.length
  | [], _ => rfl
  | _ :: rest, i => by simp [accumBits, accumBits_length h w rest (i + 1)]

theorem accumBits_getD (h w : Nat) :
    ∀ (v : List Int) (i j : Nat), j < v.length →
    (accumBits h w v i).getD j 0 =
      if h.testBit (i + j) then v.getD j 0 + (w : Int) else v.getD j 0 - (w : Int)
  | [], _, j, hj => by simp at hj
  | a :: rest, i, 0, _ => by simp [accumBits]
  | a :: rest, i, j + 1, hj => by
      have hj' : j < rest.length := by simpa using hj
      have := accumBits_getD h w rest (i + 1) j hj'
      simp only [accumBits, List.getD_cons_succ, this]
      have : i + 1 + j = i + (j + 1) := by omega
      rw [this]

theorem referenceAcc_nil (hashfn : String → Nat) (i : Nat) :
    referenceAcc hashfn [] i = 0 := rfl

theorem referenceAcc_cons (hashfn : String → Nat) (p : String × Nat)
    (fs : List (String × Nat)) (i : Nat) :
    referenceAcc hashfn (p :: fs) i =
      (if (hashfn p.1).testBit i then (p.2 : Int) else -(p.2 : Int)) + referenceAcc hashfn fs i := by
  simp [referenceAcc]

theorem simhashFold_getD (hashfn : String → Nat) :
    ∀ (fs : List (String × Nat)) (v : List Int) (i : Nat), i < v.length →
    (fs.foldl (fun v p => accumBits (hashfn p.1) p.2 v 0) v).getD i 0 =
      v.getD i 0 + referenceAcc hashfn fs i
  | [], v, i, _ => by simp [referenceAcc_nil]
  | p :: fs, v, i, hi => by
      have hlen : i < (accumBits (hashfn p.1) p.2 v 0).length := by
        rw [accumBits_length]; exact hi
      have hstep := accumBits_getD (hashfn p.1) p.2 v 0 i hi
      have := simhashFold_getD hashfn fs (accumBits (hashfn p.1) p.2 v 0) i hlen
      simp only [List.foldl_cons, this, hstep, referenceAcc_cons]
      simp only [Nat.zero_add]
      split <;> omega

theorem replicate_getD : ∀ (B i : Nat), (List.replicate B (0 : Int)).getD i 0 = 0
  | 0, _ => rfl
  | _ + 1, 0 => rfl
  | B + 1, i + 1 => by simp [List.replicate, replicate_getD B i]

theorem simhashAccum_getD (hashfn : String → Nat) (B : Nat) (fs : List (String × Nat))
    (i : Nat) (hi : i < B) :
    (simhashAccum hashfn B fs).getD i 0 = referenceAcc hashfn fs i := by
  unfold simhashAccum
  rw [simhashFold_getD hashfn fs _ i (by simpa using hi), replicate_getD]
  omega

theorem foldl_two_pow (C : Nat → Prop) [DecidablePred C] :
    ∀ (l : List Nat) (init : Nat),
    l.foldl (fun ans i => if C i then ans + 2 ^ i else ans) init =
      init + (l.map (fun i => if C i then 2 ^ i else 0)).sum
  | [], init => by simp
  | a :: l, init => by
      simp only [List.foldl_cons, List.map_cons, List.sum_cons,
        foldl_two_pow C l (if C a then init + 2 ^ a else init)]
      split <;> omega

theorem simhashCompute_eq_reference (hashfn : String → Nat) (B : Nat)
    (fs : List (String × Nat)) :
    simhashCompute hashfn B fs = referenceSimhash hashfn B fs := by
  unfold simhashCompute referenceSimhash
  rw [foldl_two_pow (fun i => 0 < (simhashAccum hashfn B fs).getD i 0) (List.range B) 0,
    Nat.zero_add]
  congr 1
  apply List.map_congr_left
  intro i hi
  rw [List.mem_range] at hi
  rw [simhashAccum_getD hashfn B fs i hi]

theorem referenceSimhash_lt (hashfn : String → Nat) (B : Nat) (fs : List (String × Nat)) :
    referenceSimhash hashfn B fs < 2 ^ B := by
  induction B with
  | zero => simp [referenceSimhash]
  | succ B ih =>
      unfold referenceSimhash at *
      rw [List.range_succ, List.map_append, List.sum_append]
      simp only [List.map_cons, List.map_nil, List.sum_cons, List.sum_nil]
      have h1 : (if 0 < referenceAcc hashfn fs B then 2 ^ B else 0) ≤ 2 ^ B := by
        split <;> omega
      have h2 : (2 : Nat) ^ (B + 1) = 2 ^ B + 2 ^ B := by rw [pow_succ]; omega
      omega

theorem simhashCompute_lt (hashfn : String → Nat) (B : Nat) (fs : List (String × Nat)) :
    simhashCompute hashfn B fs < 2 ^ B := by
  rw [simhashCompute_eq_reference]; exact referenceSimhash_lt hashfn B fs

theorem referenceAcc_perm (hashfn : String → Nat) {f1 f2 : List (String × Nat)}
    (hp : f1.Perm f2) (i : Nat) :
    referenceAcc hashfn f1 i = referenceAcc hashfn f2 i :=
  List.Perm.sum_eq (hp.map _)

/-! ## Lemmas: byte and digit round trips -/

theorem bytesToNatLE_cons (b : Nat) (bs : List Nat) :
    bytesToNatLE (b :: bs) = b + 256 * bytesToNatLE bs := rfl

theorem bytesLE_roundtrip : ∀ (k v : Nat), v < 256 ^ k →
    bytesToNatLE (natToBytesLE v k) = v
  | 0, v, h => by simp [pow_zero] at h; simp [natToBytesLE, bytesToNatLE, h]
  | k + 1, v, h => by
      have hdiv : v / 256 < 256 ^ k := by
        rw [Nat.div_lt_iff_lt_mul (by norm_num)]
        calc v < 256 ^ (k + 1) := h
          _ = 256 ^ k * 256 := by rw [pow_succ]
      have ih := bytesLE_roundtrip k (v / 256) hdiv
      show bytesToNatLE (v % 256 :: natToBytesLE (v / 256) k) = v
      rw [bytesToNatLE_cons, ih]
      omega

theorem digitsToNat_snoc (l : List Char) (c : Char) :
    digitsToNat (l ++ [c]) = 10 * digitsToNat l + digitVal c := by
  unfold digitsToNat
  rw [List.foldl_append]
  rfl

theorem digitVal_lt (c : Char) (h : isDigitChar c = true) : digitVal c < 10 := by
  unfold isDigitChar at h
  unfold digitVal
  simp only [Bool.and_eq_true, decide_eq_true_eq] at h
  omega

theorem ofNat_digitVal (c : Char) (h : isDigitChar c = true) :
    Char.ofNat (48 + digitVal c) = c := by
  unfold isDigitChar at h
  simp only [Bool.and_eq_true, decide_eq_true_eq] at h
  unfold digitVal
  rw [Nat.add_sub_cancel' h.1]
  exact Char.ofNat_toNat c

theorem natToDigitChars_digitsToNat :
    ∀ (k : Nat) (l : List Char), l.length = k → (∀ c ∈ l, isDigitChar c = true) →
    natToDigitChars k (digitsToNat l) = l
  | 0, l, hlen, _ => by
      rw [List.length_eq_zero.mp hlen]; rfl
  | k + 1, l, hlen, hdig => by
      have hne : l ≠ [] := by intro h; rw [h] at hlen; simp at hlen
      have hsplit := List.dropLast_append_getLast hne
      have hc : isDigitChar (l.getLast hne) = true :=
        hdig _ (List.getLast_mem hne)
      have hval : digitsToNat l = 10 * digitsToNat l.dropLast + digitVal (l.getLast hne) := by
        conv_lhs => rw [← hsplit]
        exact digitsToNat_snoc _ _
      have hlt := digitVal_lt _ hc
      have ih := natToDigitChars_digitsToNat k l.dropLast
        (by rw [List.length_dropLast, hlen]; rfl)
        (fun c hcmem => hdig c (List.dropLast_subset l hcmem))
      show natToDigitChars k (digitsToNat l / 10) ++ [Char.ofNat (48 + digitsToNat l % 10)] = l
      rw [hval, Nat.mul_add_div (by omega), Nat.mul_add_mod,
        Nat.div_eq_of_lt hlt, Nat.mod_eq_of_lt hlt, Nat.add_zero, ih,
        ofNat_digitVal _ hc]
      exact hsplit

/-! ## Lemmas: sorted key insertion -/

theorem insertKey_mem (x a : Nat) : ∀ l : List Nat, (a ∈ insertKey x l ↔ a = x ∨ a ∈ l)
  | [] => by simp [insertKey]
  | y :: ys => by
      unfold insertKey
      by_cases h1 : x < y
      · simp only [if_pos h1, List.mem_cons]
      · rw [if_neg h1]
        by_cases h2 : x = y
        · subst h2
          rw [if_pos rfl]
          simp only [List.mem_cons]
          tauto
        · rw [if_neg h2]
          simp only [List.mem_cons, insertKey_mem x a ys]
          tauto

theorem insertKey_pairwise (x : Nat) :
    ∀ l : List Nat, l.Pairwise (· < ·) → (insertKey x l).Pairwise (· < ·)
  | [], _ => by simp [insertKey]
  | y :: ys, hp => by
      rw [List.pairwise_cons] at hp
      unfold insertKey
      by_cases h1 : x < y
      · rw [if_pos h1, List.pairwise_cons]
        refine ⟨fun a ha => ?_, List.pairwise_cons.mpr hp⟩
        rcases List.mem_cons.mp ha with rfl | ha'
        · exact h1
        · exact lt_trans h1 (hp.1 a ha')
      · rw [if_neg h1]
        by_cases h2 : x = y
        · rw [if_pos h2, List.pairwise_cons]; exact hp
        · rw [if_neg h2, List.pairwise_cons]
          refine ⟨fun a ha => ?_, insertKey_pairwise x ys hp.2⟩
          rcases (insertKey_mem x a ys).mp ha with rfl | ha'
          · omega
          · exact hp.1 a ha'

theorem foldl_insertKey_pairwise :
    ∀ (l acc : List Nat), acc.Pairwise (· < ·) →
    (l.foldl (fun acc x => insertKey x acc) acc).Pairwise (· < ·)
  | [], _, h => h
  | x :: l, acc, h => foldl_insertKey_pairwise l _ (insertKey_pairwise x acc h)

theorem sortedKeys_pairwise (l : List Nat) : (sortedKeys l).Pairwise (· < ·) :=
  foldl_insertKey_pairwise l [] (by simp)

theorem foldl_insertKey_mem :
    ∀ (l acc : List Nat) (a : Nat),
    (a ∈ l.foldl (fun acc x => insertKey x acc) acc ↔ a ∈ acc ∨ a ∈ l)
  | [], acc, a => by simp
  | x :: l, acc, a => by
      simp only [List.foldl_cons, foldl_insertKey_mem l _ a, insertKey_mem, List.mem_cons]
      tauto

theorem sortedKeys_mem (l : List Nat) (a : Nat) : a ∈ sortedKeys l ↔ a ∈ l := by
  unfold sortedKeys
  rw [foldl_insertKey_mem]
  simp

theorem foldl_insertKey_const :
    ∀ (l : List Nat) (y : Nat), (∀ x ∈ l, x = y) →
    l.foldl (fun acc x => insertKey x acc) [y] = [y]
  | [], _, _ => rfl
  | x :: l, y, h => by
      have hx : x = y := h x (by simp)
      subst hx
      have hins : insertKey x [x] = [x] := by simp [insertKey]
      simp only [List.foldl_cons, hins]
      exact foldl_insertKey_const l x (fun z hz => h z (by simp [hz]))

theorem sortedKeys_const (l : List Nat) (y : Nat) (hne : l ≠ []) (h : ∀ x ∈ l, x = y) :
    sortedKeys l = [y] := by
  cases l with
  | nil => exact absurd rfl hne
  | cons x l =>
      have hx : x = y := h x (by simp)
      subst hx
      unfold sortedKeys
      simp only [List.foldl_cons]
      exact foldl_insertKey_const l x (fun z hz => h z (by simp [hz]))

/-! ## Lemmas: the id dictionary -/

theorem withIds_length : ∀ (l : List String) (k : Nat), (withIds l k).length = l.length
  | [], _ => rfl
  | _ :: l, k => by simp [withIds, withIds_length l (k + 1)]

theorem withIds_snoc : ∀ (l : List String) (x : String) (k : Nat),
    withIds (l ++ [x]) k = withIds l k ++ [(x, k + l.length)]
  | [], x, k => by simp [withIds]
  | s :: l, x, k => by
      show (s, k) :: withIds (l ++ [x]) (k + 1) =
        ((s, k) :: withIds l (k + 1)) ++ [(x, k + (s :: l).length)]
      rw [withIds_snoc l x (k + 1)]
      simp only [List.cons_append, List.length_cons]
      have hk : k + 1 + l.length = k + (l.length + 1) := by omega
      rw [hk]

theorem withIds_map_fst : ∀ (l : List String) (k : Nat), (withIds l k).map Prod.fst = l
  | [], _ => rfl
  | _ :: l, k => by simp [withIds, withIds_map_fst l (k + 1)]

theorem withIds_mem_snd (q : String × Nat) :
    ∀ (l : List String) (k : Nat), q ∈ withIds l k → k ≤ q.2
  | [], _, h => by simp [withIds] at h
  | s :: l, k, h => by
      rcases List.mem_cons.mp h with rfl | h'
      · exact Nat.le_refl _
      · have := withIds_mem_snd q l (k + 1) h'
        omega

theorem withIds_pairwise : ∀ (l : List String) (k : Nat),
    (withIds l k).Pairwise (fun p q => p.2 < q.2)
  | [], _ => by simp [withIds]
  | s :: l, k => by
      rw [withIds, List.pairwise_cons]
      refine ⟨fun q hq => ?_, withIds_pairwise l (k + 1)⟩
      have := withIds_mem_snd q l (k + 1) hq
      omega

theorem dictGet_withIds (x : String) : ∀ (l : List String) (k : Nat),
    dictGet x (withIds l k) = if x ∈ l then some (k + idxOf x l) else none
  | [], _ => by simp [withIds, dictGet]
  | s :: l, k => by
      by_cases hs : s = x
      · subst hs
        simp [withIds, dictGet, idxOf]
      · rw [withIds]
        show (if s = x then some k else dictGet x (withIds l (k + 1))) = _
        rw [if_neg hs, dictGet_withIds x l (k + 1)]
        by_cases hm : x ∈ l
        · have hm' : x ∈ s :: l := List.mem_cons_of_mem s hm
          rw [if_pos hm, if_pos hm']
          have hidx : idxOf x (s :: l) = idxOf x l + 1 := by simp [idxOf, hs]
          rw [hidx]
          congr 1
          omega
        · have hm' : x ∉ s :: l := by
            intro hc
            rcases List.mem_cons.mp hc with rfl | hc'
            · exact hs rfl
            · exact hm hc'
          rw [if_neg hm, if_neg hm']

/-! ## Lemmas: first-occurrence index -/

theorem idxOf_append_left (x : String) : ∀ (l t : List String), x ∈ l →
    idxOf x (l ++ t) = idxOf x l
  | [], _, h => by simp at h
  | s :: l, t, h => by
      by_cases hs : s = x
      · simp [idxOf, hs]
      · have hx : x ∈ l := by
          rcases List.mem_cons.mp h with rfl | h'
          · exact absurd rfl hs
          · exact h'
        simp [idxOf, hs, idxOf_append_left x l t hx]

theorem idxOf_snoc_self (x : String) : ∀ (l : List String), x ∉ l →
    idxOf x (l ++ [x]) = l.length
  | [], _ => by simp [idxOf]
  | s :: l, h => by
      have hs : ¬(s = x) := fun he => h (he ▸ List.mem_cons_self s l)
      have h' : x ∉ l := fun hm => h (List.mem_cons_of_mem s hm)
      simp [idxOf, hs, idxOf_snoc_self x l h']

theorem getD_idxOf (x : String) : ∀ (l : List String), x ∈ l → l.getD (idxOf x l) "" = x
  | [], h => by simp at h
  | s :: l, h => by
      by_cases hs : s = x
      · simp [idxOf, hs]
      · have hx : x ∈ l := by
          rcases List.mem_cons.mp h with rfl | h'
          · exact absurd rfl hs
          · exact h'
        have hidx : idxOf x (s :: l) = idxOf x l + 1 := by simp [idxOf, hs]
        rw [hidx, List.getD_cons_succ, getD_idxOf x l hx]

theorem idxOf_lt_length (x : String) : ∀ (l : List String), x ∈ l → idxOf x l < l.length
  | [], h => by simp at h
  | s :: l, h => by
      by_cases hs : s = x
      · simp [idxOf, hs]
      · have hx : x ∈ l := by
          rcases List.mem_cons.mp h with rfl | h'
          · exact absurd rfl hs
          · exact h'
        simp only [idxOf, if_neg hs, List.length_cons]
        have := idxOf_lt_length x l hx
        omega

/-! ## Lemmas: first-seen deduplication -/

theorem firstSeen_eq_from (l : List String) : firstSeen l = firstSeenFrom [] l := rfl

theorem firstSeenFrom_nil (fs : List String) : firstSeenFrom fs [] = fs := rfl

theorem firstSeenFrom_cons (fs : List String) (s : String) (l : List String) :
    firstSeenFrom fs (s :: l) = firstSeenFrom (if s ∈ fs then fs else fs ++ [s]) l := rfl

theorem firstSeenFrom_extends : ∀ (l fs : List String), ∃ t, firstSeenFrom fs l = fs ++ t
  | [], fs => ⟨[], by simp [firstSeenFrom_nil]⟩
  | s :: l, fs => by
      rw [firstSeenFrom_cons]
      by_cases h : s ∈ fs
      · rw [if_pos h]
        exact firstSeenFrom_extends l fs
      · rw [if_neg h]
        obtain ⟨t, ht⟩ := firstSeenFrom_extends l (fs ++ [s])
        exact ⟨[s] ++ t, by rw [ht, List.append_assoc]⟩

theorem mem_firstSeenFrom (x : String) : ∀ (l fs : List String),
    (x ∈ firstSeenFrom fs l ↔ x ∈ fs ∨ x ∈ l)
  | [], fs => by simp [firstSeenFrom_nil]
  | s :: l, fs => by
      rw [firstSeenFrom_cons]
      by_cases h : s ∈ fs
      · rw [if_pos h, mem_firstSeenFrom x l fs, List.mem_cons]
        constructor
        · tauto
        · rintro (hf | rfl | hl)
          · exact Or.inl hf
          · exact Or.inl h
          · exact Or.inr hl
      · rw [if_neg h, mem_firstSeenFrom x l (fs ++ [s])]
        simp only [List.mem_append, List.mem_singleton, List.mem_cons]
        tauto

theorem mem_firstSeen (x : String) (l : List String) : x ∈ firstSeen l ↔ x ∈ l := by
  rw [firstSeen_eq_from, mem_firstSeenFrom]
  simp

theorem idxOf_firstSeenFrom (x : String) (fs l : List String) (h : x ∈ fs) :
    idxOf x (firstSeenFrom fs l) = idxOf x fs := by
  obtain ⟨t, ht⟩ := firstSeenFrom_extends l fs
  rw [ht, idxOf_append_left x fs t h]

/-! ## Lemmas: sorting the dictionary by id -/

theorem sortBySnd_pairwise_eq : ∀ l : List (String × Nat),
    l.Pairwise (fun p q => p.2 < q.2) → sortBySnd l = l
  | [], _ => rfl
  | p :: l, h => by
      rw [List.pairwise_cons] at h
      show insertBySnd p (l.foldr insertBySnd []) = p :: l
      have hl : l.foldr insertBySnd [] = l := sortBySnd_pairwise_eq l h.2
      rw [hl]
      cases l with
      | nil => rfl
      | cons q l' =>
          unfold insertBySnd
          rw [if_pos (h.1 q (by simp))]

/-! ## Lemmas: the compression loop -/

theorem compressLoop_good :
    ∀ (caps : List (String × String)) (fs : List String) (rs : List CapRec),
    (∀ c ∈ caps, (tsFields c.1).isOk = true) →
    compressLoop caps (withIds fs 0) rs =
      .ok (withIds (firstSeenFrom fs (caps.map Prod.snd)) 0,
           rs ++ caps.map (mkRecFrom (firstSeenFrom fs (caps.map Prod.snd))))
  | [], fs, rs, _ => by simp [compressLoop, firstSeenFrom_nil]
  | c :: rest, fs, rs, h => by
      have hok := h c (by simp)
      cases htf : tsFields c.1 with
      | error e => rw [htf] at hok; simp [Except.isOk, Except.toBool] at hok
      | ok t =>
        obtain ⟨y, m, d⟩ := t
        have hymd : tsYMD c.1 = (y, m, d) := by unfold tsYMD; rw [htf]
        have hrest : ∀ c' ∈ rest, (tsFields c'.1).isOk = true :=
          fun c' hc' => h c' (by simp [hc'])
        simp only [compressLoop, htf]
        rw [dictGet_withIds c.2 fs 0]
        simp only [List.map_cons, firstSeenFrom_cons]
        by_cases hmem : c.2 ∈ fs
        · simp only [if_pos hmem, Option.getD_some, Option.isSome_some, if_true,
            Nat.zero_add]
          rw [compressLoop_good rest fs _ hrest]
          have hrec : mkRecFrom (firstSeenFrom fs (rest.map Prod.snd)) c =
              ⟨y, m, d, pyDropFrom c.1 8, idxOf c.2 fs⟩ := by
            unfold mkRecFrom
            rw [hymd, idxOf_firstSeenFrom c.2 fs _ hmem]
          rw [hrec]
          simp
        · simp only [if_neg hmem, Option.getD_none, Option.isSome_none, Bool.false_eq_true,
            if_false]
          rw [withIds_length]
          have hsnoc : withIds fs 0 ++ [(c.2, fs.length)] = withIds (fs ++ [c.2]) 0 := by
            rw [withIds_snoc]
            simp
          rw [hsnoc, compressLoop_good rest (fs ++ [c.2]) _ hrest]
          have hmem' : c.2 ∈ fs ++ [c.2] := by simp
          have hrec : mkRecFrom (firstSeenFrom (fs ++ [c.2]) (rest.map Prod.snd)) c =
              ⟨y, m, d, pyDropFrom c.1 8, fs.length⟩ := by
            unfold mkRecFrom
            rw [hymd, idxOf_firstSeenFrom c.2 (fs ++ [c.2]) _ hmem',
              idxOf_snoc_self c.2 fs hmem]
          rw [hrec]
          simp

theorem compress_spec (caps : List (String × String))
    (h : ∀ c ∈ caps, (tsFields c.1).isOk = true) :
    compress_captures caps =
      .ok { captures := buildTree (caps.map (mkRecFrom (firstSeen (caps.map Prod.snd)))),
            hashes := firstSeen (caps.map Prod.snd) } := by
  have hloop : compressLoop caps [] [] =
      .ok (withIds (firstSeenFrom [] (caps.map Prod.snd)) 0,
           [] ++ caps.map (mkRecFrom (firstSeenFrom [] (caps.map Prod.snd)))) :=
    compressLoop_good caps [] [] h
  rw [List.nil_append] at hloop
  unfold compress_captures
  rw [hloop]
  show Except.ok
      ({ captures := buildTree (caps.map (mkRecFrom (firstSeenFrom [] (caps.map Prod.snd)))),
         hashes :=
           (sortBySnd (withIds (firstSeenFrom [] (caps.map Prod.snd)) 0)).map
             Prod.fst } : CompressedArchive) =
    Except.ok
      ({ captures := buildTree (caps.map (mkRecFrom (firstSeen (caps.map Prod.snd)))),
         hashes := firstSeen (caps.map Prod.snd) } : CompressedArchive)
  rw [← firstSeen_eq_from,
    sortBySnd_pairwise_eq _ (withIds_pairwise (firstSeen (caps.map Prod.snd)) 0),
    withIds_map_fst]

theorem compressLoop_err :
    ∀ (caps : List (String × String)) (dict : List (String × Nat)) (rs : List CapRec)
      (c : String × String),
    caps.find? (fun c => !(tsFields c.1).isOk) = some c →
    compressLoop caps dict rs = .error (tsErrMsg c.1)
  | [], _, _, _, h => by simp at h
  | c0 :: rest, dict, rs, c, h => by
      cases htf : tsFields c0.1 with
      | error e =>
          simp only [List.find?, htf, Except.isOk, Except.toBool, Bool.not_false] at h
          have hc : c0 = c := by injection h
          subst hc
          simp [compressLoop, htf, tsErrMsg]
      | ok t =>
          simp only [List.find?, htf, Except.isOk, Except.toBool, Bool.not_true] at h
          obtain ⟨y, m, d⟩ := t
          simp only [compressLoop, htf]
          exact compressLoop_err rest _ _ c h

theorem compress_err (caps : List (String × String)) (c : String × String)
    (h : caps.find? (fun c => !(tsFields c.1).isOk) = some c) :
    compress_captures caps = .error (tsErrMsg c.1) := by
  unfold compress_captures
  rw [compressLoop_err caps [] [] c h]

theorem compressLoop_ok_good :
    ∀ (caps : List (String × String)) (dict : List (String × Nat)) (rs : List CapRec)
      (st : List (String × Nat) × List CapRec),
    compressLoop caps dict rs = .ok st → ∀ c ∈ caps, (tsFields c.1).isOk = true
  | [], _, _, _, _, c, hc => by simp at hc
  | c0 :: rest, dict, rs, st, h, c, hc => by
      cases htf : tsFields c0.1 with
      | error e =>
          simp only [compressLoop, htf] at h
          exact Except.noConfusion h
      | ok t =>
          obtain ⟨y, m, d⟩ := t
          simp only [compressLoop, htf] at h
          rcases List.mem_cons.mp hc with rfl | hc'
          · rw [htf]; rfl
          · exact compressLoop_ok_good rest _ _ st h c hc'

theorem compress_ok_good (caps : List (String × String)) (a : CompressedArchive)
    (h : compress_captures caps = .ok a) : ∀ c ∈ caps, (tsFields c.1).isOk = true := by
  unfold compress_captures at h
  cases hl : compressLoop caps [] [] with
  | error e => rw [hl] at h; simp at h
  | ok st => exact compressLoop_ok_good caps [] [] st hl

/-! ## Lemmas: the emitted tree -/

theorem filter_map_comm {α β : Type} (f : α → β) (p : β → Bool) :
    ∀ l : List α, (l.map f).filter p = (l.filter (fun x => p (f x))).map f
  | [] => rfl
  | x :: l => by
      cases h : p (f x) <;>
        simp [List.filter_cons, h, filter_map_comm f p l]

theorem treeGet_map_self {β : Type} (g : Nat → β) :
    ∀ (l : List Nat) (k : Nat),
    treeGet k (l.map (fun y => (y, g y))) = if k ∈ l then some (g k) else none
  | [], _ => by simp [treeGet]
  | y :: l, k => by
      simp only [List.map_cons, treeGet]
      by_cases h : y = k
      · subst h
        simp
      · rw [if_neg h, treeGet_map_self g l k]
        have hiff : (k ∈ y :: l) ↔ (k ∈ l) := by
          constructor
          · intro hm
            rcases List.mem_cons.mp hm with rfl | hm'
            · exact absurd rfl h
            · exact hm'
          · exact fun hm => List.mem_cons_of_mem y hm
        by_cases hm : k ∈ l
        · rw [if_pos hm, if_pos (hiff.mpr hm)]
        · rw [if_neg hm, if_neg (fun hc => hm (hiff.mp hc))]

theorem dayPairs_eq_nil (recs : List CapRec) (y m d : Nat)
    (h : ∀ r ∈ recs, ¬(r.year = y ∧ r.month = m ∧ r.day = d)) :
    dayPairs recs y m d = [] := by
  unfold dayPairs
  rw [List.filter_eq_nil_iff.mpr]
  · rfl
  · intro r hr
    simp only [decide_eq_true_eq]
    exact h r hr

theorem treeDay_buildTree (recs : List CapRec) (y m d : Nat) :
    treeDay (buildTree recs) y m d = dayPairs recs y m d := by
  unfold treeDay buildTree
  rw [treeGet_map_self]
  by_cases hy : y ∈ sortedKeys (recs.map (·.year))
  · rw [if_pos hy]
    dsimp only
    rw [treeGet_map_self]
    by_cases hm : m ∈ sortedKeys ((recs.filter (fun r => decide (r.year = y))).map (·.month))
    · rw [if_pos hm]
      dsimp only
      rw [treeGet_map_self]
      by_cases hd : d ∈ sortedKeys
          ((recs.filter (fun r => decide (r.year = y ∧ r.month = m))).map (·.day))
      · rw [if_pos hd]
        rfl
      · rw [if_neg hd]
        symm
        apply dayPairs_eq_nil
        intro r hr hcon
        apply hd
        rw [sortedKeys_mem]
        apply List.mem_map.mpr
        refine ⟨r, List.mem_filter.mpr ⟨hr, ?_⟩, hcon.2.2⟩
        simp only [decide_eq_true_eq]
        exact ⟨hcon.1, hcon.2.1⟩
    · rw [if_neg hm]
      dsimp only
      symm
      apply dayPairs_eq_nil
      intro r hr hcon
      apply hm
      rw [sortedKeys_mem]
      apply List.mem_map.mpr
      refine ⟨r, List.mem_filter.mpr ⟨hr, ?_⟩, hcon.2.1⟩
      simp only [decide_eq_true_eq]
      exact hcon.1
  · rw [if_neg hy]
    dsimp only
    symm
    apply dayPairs_eq_nil
    intro r hr hcon
    apply hy
    rw [sortedKeys_mem]
    exact List.mem_map.mpr ⟨r, hr, hcon.1⟩

theorem dayPairs_map_mkRecFrom (hs : List String) (caps : List (String × String)) (y m d : Nat) :
    dayPairs (caps.map (mkRecFrom hs)) y m d =
      (caps.filter (fun c => decide (tsYMD c.1 = (y, m, d)))).map
        (fun c => (pyDropFrom c.1 8, idxOf c.2 hs)) := by
  unfold dayPairs
  rw [filter_map_comm (mkRecFrom hs) _ caps, List.map_map]
  have hfil : caps.filter
        (fun x => decide ((mkRecFrom hs x).year = y ∧ (mkRecFrom hs x).month = m ∧
          (mkRecFrom hs x).day = d)) =
      caps.filter (fun c => decide (tsYMD c.1 = (y, m, d))) := by
    apply List.filter_congr
    intro x _
    apply decide_eq_decide.mpr
    rcases hymd : tsYMD x.1 with ⟨a, bc⟩
    rcases bc with ⟨b, c2⟩
    simp [mkRecFrom, hymd, Prod.mk.injEq]
  rw [hfil]
  rfl

theorem treeDay_compress (caps : List (String × String)) (a : CompressedArchive)
    (hgood : ∀ c ∈ caps, (tsFields c.1).isOk = true)
    (hok : compress_captures caps = .ok a) (y m d : Nat) :
    treeDay a.captures y m d =
      (caps.filter (fun c => decide (tsYMD c.1 = (y, m, d)))).map
        (fun c => (pyDropFrom c.1 8, idxOf c.2 a.hashes)) := by
  have hspec := compress_spec caps hgood
  rw [hok] at hspec
  have ha : a =
      { captures := buildTree (caps.map (mkRecFrom (firstSeen (caps.map Prod.snd)))),
        hashes := firstSeen (caps.map Prod.snd) } := by
    injection hspec
  subst ha
  rw [treeDay_buildTree, dayPairs_map_mkRecFrom]

/-! ## Lemmas: sortedness of the emitted keys -/

theorem buildTree_years_pairwise (recs : List CapRec) :
    ((buildTree recs).map Prod.fst).Pairwise (· < ·) := by
  unfold buildTree
  rw [List.map_map]
  have : (Prod.fst ∘ fun y =>
      ((y, ((sortedKeys ((recs.filter (fun r => decide (r.year = y))).map (·.month))).map
        (fun m => (m, (sortedKeys ((recs.filter
          (fun r => decide (r.year = y ∧ r.month = m))).map (·.day))).map
          (fun d => (d, dayPairs recs y m d)))))) : YearEntry)) = id := rfl
  rw [this, List.map_id]
  exact sortedKeys_pairwise _

theorem buildTree_months_pairwise (recs : List CapRec) (ye : YearEntry)
    (hye : ye ∈ buildTree recs) : (ye.2.map Prod.fst).Pairwise (· < ·) := by
  unfold buildTree at hye
  obtain ⟨y, _, rfl⟩ := List.mem_map.mp hye
  rw [List.map_map]
  have : (Prod.fst ∘ fun m =>
      ((m, (sortedKeys ((recs.filter
        (fun r => decide (r.year = y ∧ r.month = m))).map (·.day))).map
        (fun d => (d, dayPairs recs y m d))) : MonthEntry)) = id := rfl
  rw [this, List.map_id]
  exact sortedKeys_pairwise _

theorem buildTree_days_pairwise (recs : List CapRec) (ye : YearEntry)
    (hye : ye ∈ buildTree recs) (me : MonthEntry) (hme : me ∈ ye.2) :
    (me.2.map Prod.fst).Pairwise (· < ·) := by
  unfold buildTree at hye
  obtain ⟨y, _, rfl⟩ := List.mem_map.mp hye
  simp only at hme
  obtain ⟨m, _, rfl⟩ := List.mem_map.mp hme
  rw [List.map_map]
  have : (Prod.fst ∘ fun d => ((d, dayPairs recs y m d) : DayEntry)) = id := rfl
  rw [this, List.map_id]
  exact sortedKeys_pairwise _

/-! ## Lemmas: valid ids in the tree -/

theorem buildTree_pair_mem (recs : List CapRec) (ye : YearEntry) (hye : ye ∈ buildTree recs)
    (me : MonthEntry) (hme : me ∈ ye.2) (de : DayEntry) (hde : de ∈ me.2)
    (p : String × Nat) (hp : p ∈ de.2) : ∃ r ∈ recs, p = (r.hms, r.hid) := by
  unfold buildTree at hye
  obtain ⟨y, _, rfl⟩ := List.mem_map.mp hye
  simp only at hme
  obtain ⟨m, _, rfl⟩ := List.mem_map.mp hme
  simp only at hde
  obtain ⟨d, _, rfl⟩ := List.mem_map.mp hde
  simp only at hp
  unfold dayPairs at hp
  obtain ⟨r, hr, hpr⟩ := List.mem_map.mp hp
  exact ⟨r, (List.mem_filter.mp hr).1, hpr.symm⟩

/-! ## Lemmas: well-formed timestamps -/

theorem digit_not_space (c : Char) (h : isDigitChar c = true) : isPySpace c = false := by
  unfold isDigitChar at h
  simp only [Bool.and_eq_true, decide_eq_true_eq] at h
  cases hs : isPySpace c
  · rfl
  · unfold isPySpace at hs
    simp only [Bool.or_eq_true, decide_eq_true_eq] at hs
    omega

theorem letter_not_digit (c : Char) (h : isAsciiLetter c = true) : isDigitChar c = false := by
  unfold isAsciiLetter at h
  simp only [Bool.or_eq_true, Bool.and_eq_true, decide_eq_true_eq] at h
  cases hd : isDigitChar c
  · rfl
  · unfold isDigitChar at hd
    simp only [Bool.and_eq_true, decide_eq_true_eq] at hd
    rcases h with ⟨h1, h2⟩ | ⟨h1, h2⟩ <;> omega

theorem letter_not_space (c : Char) (h : isAsciiLetter c = true) : isPySpace c = false := by
  unfold isAsciiLetter at h
  simp only [Bool.or_eq_true, Bool.and_eq_true, decide_eq_true_eq] at h
  cases hs : isPySpace c
  · rfl
  · unfold isPySpace at hs
    simp only [Bool.or_eq_true, decide_eq_true_eq] at hs
    rcases h with ⟨h1, h2⟩ | ⟨h1, h2⟩ <;> omega

theorem dropWhile_of_head_false {p : Char → Bool} :
    ∀ l : List Char, (∀ c ∈ l, p c = false) → l.dropWhile p = l
  | [], _ => rfl
  | c :: rest, h => by
      rw [List.dropWhile_cons, h c (List.mem_cons_self c rest)]
      simp

theorem stripPySpace_of_no_space (l : List Char) (h : ∀ c ∈ l, isPySpace c = false) :
    stripPySpace l = l := by
  unfold stripPySpace
  rw [dropWhile_of_head_false l h,
    dropWhile_of_head_false l.reverse (fun c hc => h c (List.mem_reverse.mp hc)),
    List.reverse_reverse]

theorem pyDigitsCore_digits :
    ∀ (l : List Char) (acc : Nat), l.all isDigitChar = true →
    pyDigitsCore l acc = some (l.foldl (fun a c => 10 * a + digitVal c) acc)
  | [], _, _ => rfl
  | c :: rest, acc, h => by
      have h' : isDigitChar c = true ∧ rest.all isDigitChar = true := by simpa using h
      unfold pyDigitsCore
      rw [if_pos h'.1, pyDigitsCore_digits rest _ h'.2, List.foldl_cons]

theorem pyInt_of_digits (s : String) (hne : s.data ≠ [])
    (hdig : s.data.all isDigitChar = true) :
    pyInt s = some (digitsToNat s.data) := by
  have hall := List.all_eq_true.mp hdig
  have hstrip : stripPySpace s.data = s.data :=
    stripPySpace_of_no_space s.data (fun c hc => digit_not_space c (hall c hc))
  unfold pyInt
  rw [hstrip]
  cases hd : s.data with
  | nil => exact absurd hd hne
  | cons c rest =>
      rw [hd] at hall
      have hc : isDigitChar c = true := hall c (List.mem_cons_self c rest)
      have hplus : ¬(c = '+') := fun he => by rw [he] at hc; exact absurd hc (by decide)
      have hminus : ¬(c = '-') := fun he => by rw [he] at hc; exact absurd hc (by decide)
      have hrest : rest.all isDigitChar = true :=
        List.all_eq_true.mpr (fun x hx => hall x (List.mem_cons_of_mem c hx))
      dsimp only
      rw [if_neg hplus, if_neg hminus]
      show pyIntBody (c :: rest) = some (digitsToNat (c :: rest))
      unfold pyIntBody
      dsimp only
      rw [if_pos hc, pyDigitsCore_digits rest _ hrest]
      unfold digitsToNat
      rw [List.foldl_cons]
      congr 2
      omega

theorem pyDigitsCore_letter :
    ∀ (l : List Char) (acc : Nat) (x : Char), x ∈ l → isAsciiLetter x = true →
    pyDigitsCore l acc = none
  | [], _, x, hx, _ => by simp at hx
  | c :: rest, acc, x, hx, hlet => by
      unfold pyDigitsCore
      by_cases hc : isDigitChar c = true
      · rw [if_pos hc]
        have hxr : x ∈ rest := by
          rcases List.mem_cons.mp hx with rfl | h'
          · rw [letter_not_digit x hlet] at hc
            exact absurd hc (by simp)
          · exact h'
        exact pyDigitsCore_letter rest _ x hxr hlet
      · rw [if_neg hc]
        by_cases hu : c = '_'
        · rw [if_pos hu]
          have hxr : x ∈ rest := by
            rcases List.mem_cons.mp hx with rfl | h'
            · exact absurd (hu ▸ hlet) (by decide)
            · exact h'
          cases rest with
          | nil => simp at hxr
          | cons d rest2 =>
              dsimp only
              by_cases hd2 : isDigitChar d = true
              · rw [if_pos hd2]
                have hxr2 : x ∈ rest2 := by
                  rcases List.mem_cons.mp hxr with rfl | h'
                  · rw [letter_not_digit x hlet] at hd2
                    exact absurd hd2 (by simp)
                  · exact h'
                exact pyDigitsCore_letter rest2 _ x hxr2 hlet
              · rw [if_neg hd2]
        · rw [if_neg hu]

theorem pyIntBody_letter (l : List Char) (x : Char) (hx : x ∈ l)
    (hlet : isAsciiLetter x = true) : pyIntBody l = none := by
  cases l with
  | nil => rfl
  | cons c rest =>
      unfold pyIntBody
      dsimp only
      by_cases hc : isDigitChar c = true
      · rw [if_pos hc]
        have hxr : x ∈ rest := by
          rcases List.mem_cons.mp hx with rfl | h'
          · rw [letter_not_digit x hlet] at hc
            exact absurd hc (by simp)
          · exact h'
        exact pyDigitsCore_letter rest _ x hxr hlet
      · rw [if_neg hc]

theorem mem_dropWhile_of_false (p : Char → Bool) :
    ∀ (l : List Char) (x : Char), x ∈ l → p x = false → x ∈ l.dropWhile p
  | [], x, hx, _ => by simp at hx
  | c :: rest, x, hx, hpx => by
      rw [List.dropWhile_cons]
      by_cases hc : p c = true
      · rw [if_pos hc]
        have hxr : x ∈ rest := by
          rcases List.mem_cons.mp hx with rfl | h'
          · rw [hpx] at hc
            exact absurd hc (by simp)
          · exact h'
        exact mem_dropWhile_of_false p rest x hxr hpx
      · rw [if_neg hc]
        exact hx

theorem mem_stripPySpace (l : List Char) (x : Char) (hx : x ∈ l)
    (hs : isPySpace x = false) : x ∈ stripPySpace l := by
  unfold stripPySpace
  rw [List.mem_reverse]
  exact mem_dropWhile_of_false isPySpace _ x
    (List.mem_reverse.mpr (mem_dropWhile_of_false isPySpace l x hx hs)) hs

theorem pyInt_letter (s : String) (x : Char) (hx : x ∈ s.data)
    (hlet : isAsciiLetter x = true) : pyInt s = none := by
  have hxs : x ∈ stripPySpace s.data :=
    mem_stripPySpace s.data x hx (letter_not_space x hlet)
  unfold pyInt
  cases hstrip : stripPySpace s.data with
  | nil => rfl
  | cons c rest =>
      rw [hstrip] at hxs
      dsimp only
      by_cases hplus : c = '+'
      · rw [if_pos hplus]
        have hxr : x ∈ rest := by
          rcases List.mem_cons.mp hxs with rfl | h'
          · exact absurd (hplus ▸ hlet) (by decide)
          · exact h'
        exact pyIntBody_letter rest x hxr hlet
      · rw [if_neg hplus]
        by_cases hminus : c = '-'
        · rw [if_pos hminus]
          have hxr : x ∈ rest := by
            rcases List.mem_cons.mp hxs with rfl | h'
            · exact absurd (hminus ▸ hlet) (by decide)
            · exact h'
          rw [pyIntBody_letter rest x hxr hlet]
        · rw [if_neg hminus]
          exact pyIntBody_letter (c :: rest) x hxs hlet

theorem digitSlice_pyInt (s : String) (h : digitSlice s = true) :
    pyInt s = some (digitsToNat s.data) := by
  unfold digitSlice at h
  simp only [Bool.and_eq_true, Bool.not_eq_true'] at h
  apply pyInt_of_digits s _ h.2
  intro he
  rw [he] at h
  simp at h

theorem doomedSlice_pyInt (s : String) (h : doomedSlice s = true) : pyInt s = none := by
  unfold doomedSlice at h
  rw [Bool.or_eq_true] at h
  rcases h with h | h
  · rw [List.isEmpty_iff] at h
    unfold pyInt
    rw [show stripPySpace s.data = [] from by rw [h]; rfl]
  · obtain ⟨x, hx, hlet⟩ := List.any_eq_true.mp h
    exact pyInt_letter s x hx hlet

theorem digit_not_doomed (s : String) (h : digitSlice s = true) : doomedSlice s = false := by
  unfold digitSlice at h
  simp only [Bool.and_eq_true, Bool.not_eq_true'] at h
  unfold doomedSlice
  rw [h.1]
  simp only [Bool.false_or]
  cases hany : s.data.any isAsciiLetter
  · rfl
  · obtain ⟨x, hx, hlet⟩ := List.any_eq_true.mp hany
    have hxd := List.all_eq_true.mp h.2 x hx
    rw [letter_not_digit x hlet] at hxd
    exact absurd hxd (by simp)

theorem digitTs_isOk (ts : String) (h : digitTs ts = true) : (tsFields ts).isOk = true := by
  unfold digitTs at h
  simp only [Bool.and_eq_true] at h
  have e1 := digitSlice_pyInt _ h.1.1
  have e2 := digitSlice_pyInt _ h.1.2
  have e3 := digitSlice_pyInt _ h.2
  simp only [tsFields, e1, e2, e3]
  rfl

theorem plain_badTs (ts : String) (h : plainSlices ts = true) :
    badTs ts = !(tsFields ts).isOk := by
  unfold plainSlices at h
  simp only [Bool.and_eq_true, Bool.or_eq_true] at h
  obtain ⟨⟨h1, h2⟩, h3⟩ := h
  rcases h1 with h1 | h1
  · have e1 := digitSlice_pyInt _ h1
    rcases h2 with h2 | h2
    · have e2 := digitSlice_pyInt _ h2
      rcases h3 with h3 | h3
      · have hok : (tsFields ts).isOk = true := by
          simp only [tsFields, e1, e2, digitSlice_pyInt _ h3]
          rfl
        have hbad : badTs ts = false := by
          unfold badTs
          rw [digit_not_doomed _ h1, digit_not_doomed _ h2, digit_not_doomed _ h3]
          rfl
        rw [hbad, hok]
        rfl
      · have herr : (tsFields ts).isOk = false := by
          simp only [tsFields, e1, e2, doomedSlice_pyInt _ h3]
          rfl
        have hbad : badTs ts = true := by
          unfold badTs
          rw [h3]
          simp
        rw [hbad, herr]
        rfl
    · have herr : (tsFields ts).isOk = false := by
        simp only [tsFields, e1, doomedSlice_pyInt _ h2]
        rfl
      have hbad : badTs ts = true := by
        unfold badTs
        rw [h2]
        simp
      rw [hbad, herr]
      rfl
  · have herr : (tsFields ts).isOk = false := by
      simp only [tsFields, doomedSlice_pyInt _ h1]
      rfl
    have hbad : badTs ts = true := by
      unfold badTs
      rw [h1]
      simp
    rw [hbad, herr]
    rfl

theorem find?_congr_mem {α : Type} (p q : α → Bool) :
    ∀ l : List α, (∀ a ∈ l, p a = q a) → l.find? p = l.find? q
  | [], _ => rfl
  | a :: l, h => by
      simp only [List.find?]
      rw [h a (List.mem_cons_self a l)]
      cases q a
      · exact find?_congr_mem p q l (fun x hx => h x (List.mem_cons_of_mem a hx))
      · rfl

theorem slice_digits (ts : String) (hdig : ts.data.all isDigitChar = true) (a k : Nat) :
    ((ts.data.drop a).take k).all isDigitChar = true := by
  rw [List.all_eq_true] at *
  intro c hc
  exact hdig c (List.drop_subset a ts.data (List.take_subset k _ hc))

theorem slice_ne_nil (ts : String) (hlen : ts.data.length = 14) (a k : Nat)
    (ha : a + k ≤ 14) (hk : 0 < k) : (ts.data.drop a).take k ≠ [] := by
  have hl : ((ts.data.drop a).take k).length = k := by
    rw [List.length_take, List.length_drop, hlen]
    omega
  intro h
  rw [h] at hl
  simp at hl
  omega

theorem tsFields_wf (ts : String) (hlen : ts.data.length = 14)
    (hdig : ts.data.all isDigitChar = true) :
    tsFields ts = .ok (digitsToNat ((ts.data.drop 0).take 4),
      digitsToNat ((ts.data.drop 4).take 2), digitsToNat ((ts.data.drop 6).take 2)) := by
  have h1 : pyInt (pySlice ts 0 4) = some (digitsToNat ((ts.data.drop 0).take 4)) :=
    pyInt_of_digits _ (slice_ne_nil ts hlen 0 4 (by omega) (by omega))
      (slice_digits ts hdig 0 4)
  have h2 : pyInt (pySlice ts 4 6) = some (digitsToNat ((ts.data.drop 4).take 2)) :=
    pyInt_of_digits _ (slice_ne_nil ts hlen 4 2 (by omega) (by omega))
      (slice_digits ts hdig 4 2)
  have h3 : pyInt (pySlice ts 6 8) = some (digitsToNat ((ts.data.drop 6).take 2)) :=
    pyInt_of_digits _ (slice_ne_nil ts hlen 6 2 (by omega) (by omega))
      (slice_digits ts hdig 6 2)
  simp only [tsFields, h1, h2, h3]

theorem tsFields_wf_isOk (ts : String) (hlen : ts.data.length = 14)
    (hdig : ts.data.all isDigitChar = true) : (tsFields ts).isOk = true := by
  rw [tsFields_wf ts hlen hdig]
  rfl

/-! ## Lemmas: slices determined by the first eight characters -/

theorem take8_take4 (l : List Char) : (l.take 8).take 4 = l.take 4 := by
  rw [List.take_take]
  norm_num

theorem take8_mid (l : List Char) : ((l.take 8).drop 4).take 2 = (l.drop 4).take 2 := by
  rw [List.drop_take, List.take_take]
  norm_num

theorem take8_last (l : List Char) : ((l.take 8).drop 6).take 2 = (l.drop 6).take 2 := by
  rw [List.drop_take, List.take_take]
  norm_num

theorem take_split8 (l : List Char) :
    l.take 4 ++ (l.drop 4).take 2 ++ (l.drop 6).take 2 = l.take 8 := by
  have h1 : l.take 6 = l.take 4 ++ (l.drop 4).take 2 := List.take_add l 4 2
  have h2 : l.take 8 = l.take 6 ++ (l.drop 6).take 2 := List.take_add l 6 2
  rw [h2, h1]

/-! ## Lemmas: round trip for captures sharing one day -/

theorem mk_append (a b : List Char) : String.mk a ++ String.mk b = String.mk (a ++ b) := rfl

theorem take_digits (l : List Char) (hdig : l.all isDigitChar = true) (k : Nat) :
    (l.take k).all isDigitChar = true := by
  rw [List.all_eq_true] at *
  intro c hc
  exact hdig c (List.take_subset k l hc)

theorem reconstruct_single_day (caps : List (String × String))
    (hwf : ∀ c ∈ caps, c.1.data.length = 14 ∧ c.1.data.all isDigitChar = true)
    (hshare : ∀ c ∈ caps, ∀ c' ∈ caps, pySlice c.1 0 8 = pySlice c'.1 0 8)
    (a : CompressedArchive) (hok : compress_captures caps = .ok a) :
    reconstruct a = caps := by
  rcases caps with _ | ⟨c0, rest⟩
  · have h0 : compress_captures [] = Except.ok { captures := [], hashes := [] } := rfl
    rw [hok] at h0
    have ha : a = { captures := [], hashes := [] } := Except.ok.inj h0
    subst ha
    rfl
  · have hgood : ∀ c ∈ c0 :: rest, (tsFields c.1).isOk = true :=
      fun c hc => tsFields_wf_isOk c.1 (hwf c hc).1 (hwf c hc).2
    have hspec := compress_spec _ hgood
    rw [hok] at hspec
    have ha := Except.ok.inj hspec
    subst ha
    set FS := firstSeen ((c0 :: rest).map Prod.snd) with hFS
    have hymd : ∀ c ∈ c0 :: rest, tsYMD c.1 = tsYMD c0.1 := by
      intro c hc
      have hcwf := hwf c hc
      have h0wf := hwf c0 (List.mem_cons_self c0 rest)
      have hsh : pySlice c.1 0 8 = pySlice c0.1 0 8 :=
        hshare c hc c0 (List.mem_cons_self c0 rest)
      have htake8 : c.1.data.take 8 = c0.1.data.take 8 := by
        have hd := congrArg String.data hsh
        simpa [pySlice, List.drop_zero] using hd
      unfold tsYMD
      rw [tsFields_wf c.1 hcwf.1 hcwf.2, tsFields_wf c0.1 h0wf.1 h0wf.2,
        List.drop_zero, List.drop_zero,
        ← take8_take4 c.1.data, ← take8_mid c.1.data, ← take8_last c.1.data, htake8,
        take8_take4, take8_mid, take8_last]
    rcases hY : tsYMD c0.1 with ⟨Y, MD⟩
    rcases MD with ⟨M, D⟩
    have hyear : ∀ r ∈ (c0 :: rest).map (mkRecFrom FS),
        r.year = Y ∧ r.month = M ∧ r.day = D := by
      intro r hr
      obtain ⟨c, hc, rfl⟩ := List.mem_map.mp hr
      have hc3 : tsYMD c.1 = (Y, M, D) := (hymd c hc).trans hY
      unfold mkRecFrom
      rw [hc3]
      exact ⟨rfl, rfl, rfl⟩
    have htree : buildTree ((c0 :: rest).map (mkRecFrom FS)) =
        [(Y, [(M, [(D, ((c0 :: rest).map (mkRecFrom FS)).map
          (fun r => (r.hms, r.hid)))])])] := by
      unfold buildTree
      have hfil1 : ((c0 :: rest).map (mkRecFrom FS)).filter
          (fun r => decide (r.year = Y)) = (c0 :: rest).map (mkRecFrom FS) :=
        List.filter_eq_self.mpr (fun r hr => decide_eq_true (hyear r hr).1)
      have hfil2 : ((c0 :: rest).map (mkRecFrom FS)).filter
          (fun r => decide (r.year = Y ∧ r.month = M)) = (c0 :: rest).map (mkRecFrom FS) :=
        List.filter_eq_self.mpr
          (fun r hr => decide_eq_true ⟨(hyear r hr).1, (hyear r hr).2.1⟩)
      have hy : sortedKeys (((c0 :: rest).map (mkRecFrom FS)).map (·.year)) = [Y] := by
        apply sortedKeys_const _ _ (by simp)
        intro x hx
        obtain ⟨r, hr, rfl⟩ := List.mem_map.mp hx
        exact (hyear r hr).1
      rw [hy, List.map_singleton, hfil1]
      have hm : sortedKeys (((c0 :: rest).map (mkRecFrom FS)).map (·.month)) = [M] := by
        apply sortedKeys_const _ _ (by simp)
        intro x hx
        obtain ⟨r, hr, rfl⟩ := List.mem_map.mp hx
        exact (hyear r hr).2.1
      rw [hm, List.map_singleton, hfil2]
      have hd : sortedKeys (((c0 :: rest).map (mkRecFrom FS)).map (·.day)) = [D] := by
        apply sortedKeys_const _ _ (by simp)
        intro x hx
        obtain ⟨r, hr, rfl⟩ := List.mem_map.mp hx
        exact (hyear r hr).2.2
      rw [hd, List.map_singleton]
      have hdp : dayPairs ((c0 :: rest).map (mkRecFrom FS)) Y M D =
          ((c0 :: rest).map (mkRecFrom FS)).map (fun r => (r.hms, r.hid)) := by
        unfold dayPairs
        rw [List.filter_eq_self.mpr (fun r hr => decide_eq_true
          ⟨(hyear r hr).1, (hyear r hr).2.1, (hyear r hr).2.2⟩)]
      rw [hdp]
    show reconstruct
        { captures := buildTree ((c0 :: rest).map (mkRecFrom FS)), hashes := FS } = c0 :: rest
    rw [reconstruct, htree]
    simp only [List.flatMap_cons, List.flatMap_nil, List.append_nil, List.map_map]
    have hstep : ∀ c ∈ c0 :: rest,
        ((fun p : String × Nat =>
            (String.mk (natToDigitChars 4 Y ++ natToDigitChars 2 M ++ natToDigitChars 2 D) ++
              p.1, FS.getD p.2 "")) ∘ (fun r : CapRec => (r.hms, r.hid)) ∘ mkRecFrom FS) c =
          id c := by
      intro c hc
      have hcwf := hwf c hc
      have hc3 : tsYMD c.1 = (Y, M, D) := (hymd c hc).trans hY
      have h4 : tsYMD c.1 = (digitsToNat (c.1.data.take 4),
          digitsToNat ((c.1.data.drop 4).take 2), digitsToNat ((c.1.data.drop 6).take 2)) := by
        unfold tsYMD
        rw [tsFields_wf c.1 hcwf.1 hcwf.2, List.drop_zero]
      have h5 := hc3.symm.trans h4
      simp only [Prod.mk.injEq] at h5
      have hY4 : natToDigitChars 4 Y = c.1.data.take 4 := by
        rw [h5.1]
        apply natToDigitChars_digitsToNat
        · rw [List.length_take, hcwf.1]
          decide
        · exact List.all_eq_true.mp (take_digits _ hcwf.2 4)
      have hM2 : natToDigitChars 2 M = (c.1.data.drop 4).take 2 := by
        rw [h5.2.1]
        apply natToDigitChars_digitsToNat
        · rw [List.length_take, List.length_drop, hcwf.1]
          decide
        · exact List.all_eq_true.mp (slice_digits c.1 hcwf.2 4 2)
      have hD2 : natToDigitChars 2 D = (c.1.data.drop 6).take 2 := by
        rw [h5.2.2]
        apply natToDigitChars_digitsToNat
        · rw [List.length_take, List.length_drop, hcwf.1]
          decide
        · exact List.all_eq_true.mp (slice_digits c.1 hcwf.2 6 2)
      have hcat : natToDigitChars 4 Y ++ natToDigitChars 2 M ++ natToDigitChars 2 D =
          c.1.data.take 8 := by
        rw [hY4, hM2, hD2]
        exact take_split8 c.1.data
      have hfst : String.mk (natToDigitChars 4 Y ++ natToDigitChars 2 M ++
          natToDigitChars 2 D) ++ pyDropFrom c.1 8 = c.1 := by
        rw [hcat]
        show String.mk (c.1.data.take 8) ++ String.mk (c.1.data.drop 8) = c.1
        rw [mk_append, List.take_append_drop]
      have hsnd : FS.getD (idxOf c.2 FS) "" = c.2 := by
        apply getD_idxOf
        rw [hFS, mem_firstSeen]
        exact List.mem_map_of_mem Prod.snd hc
      show (String.mk (natToDigitChars 4 Y ++ natToDigitChars 2 M ++ natToDigitChars 2 D) ++
          (mkRecFrom FS c).hms, FS.getD (mkRecFrom FS c).hid "") = c
      unfold mkRecFrom
      rw [hfst, hsnd]
    rw [List.map_congr_left hstep, List.map_id]

/-! ## Claim theorems -/

/-- C1: for every non-empty feature mapping whose weights are positive integers,
every hash function and width B, the modelled `compute` (the Simhash
accumulation invoked by `calculate_simhash`) equals the reference SimHash
definition: per-bit signed accumulation of weights by hash bit, output bit `i`
set exactly when accumulator entry `i` is positive (a tie yields 0), bits
assembled with bit 0 least significant. -/
theorem simhash_c1 (hashfn : String → Nat) (B : Nat) (features : List (String × Nat))
    (_hne : features ≠ []) (_hpos : ∀ p ∈ features, 0 < p.2) :
    simhashCompute hashfn B features = referenceSimhash hashfn B features :=
  simhashCompute_eq_reference hashfn B features

theorem simhash_c1_witness :
    simhashCompute (fun _ => 5) 4 [("a", 2)] = referenceSimhash (fun _ => 5) 4 [("a", 2)] :=
  simhash_c1 (fun _ => 5) 4 [("a", 2)] (by decide) (by decide)

/-- C2: compression assigns each distinct fingerprint string the next sequential
id at its first occurrence, emits `hashes` as the unique fingerprints in
first-seen order, and reuses the id (the fingerprint's index in `hashes`) for
every later occurrence; the concrete input AAA, BBB, AAA yields
hashes = [AAA, BBB] with emitted ids 0, 1, 0. -/
theorem simhash_c2 :
    (∀ (caps : List (String × String)) (a : CompressedArchive),
      (∀ c ∈ caps, (tsFields c.1).isOk = true) → compress_captures caps = .ok a →
      a.hashes = firstSeen (caps.map Prod.snd) ∧
      ∀ y m d, treeDay a.captures y m d =
        (caps.filter (fun c => decide (tsYMD c.1 = (y, m, d)))).map
          (fun c => (pyDropFrom c.1 8, idxOf c.2 a.hashes))) ∧
    compress_captures
        [("20230101000000", "AAA"), ("20230101000001", "BBB"), ("20230101000002", "AAA")] =
      .ok { captures := [(2023, [(1, [(1, [("000000", 0), ("000001", 1), ("000002", 0)])])])],
            hashes := ["AAA", "BBB"] } := by
  constructor
  · intro caps a hgood hok
    refine ⟨?_, treeDay_compress caps a hgood hok⟩
    have hspec := compress_spec caps hgood
    rw [hok] at hspec
    rw [Except.ok.inj hspec]
  · rfl

theorem simhash_c2_witness :
    treeDay [(2023, [(1, [(1, [("000000", 0), ("000001", 1), ("000002", 0)])])])] 2023 1 1 =
      ([("20230101000000", "AAA"), ("20230101000001", "BBB"),
          ("20230101000002", "AAA")].filter
        (fun c => decide (tsYMD c.1 = (2023, 1, 1)))).map
          (fun c => (pyDropFrom c.1 8, idxOf c.2 ["AAA", "BBB"])) :=
  (simhash_c2.1
    [("20230101000000", "AAA"), ("20230101000001", "BBB"), ("20230101000002", "AAA")]
    { captures := [(2023, [(1, [(1, [("000000", 0), ("000001", 1), ("000002", 0)])])])],
      hashes := ["AAA", "BBB"] } (by decide) rfl).2 2023 1 1

/-- C3: in the emitted tree the year keys are strictly ascending, month keys
strictly ascending within each year and day keys within each month, while each
day's pair list is exactly the in-input-order filtered captures (never
re-sorted by time); concretely, years 2023 and 2022 emit 2022 first even when
2023 comes first in the input. -/
theorem simhash_c3 :
    (∀ (caps : List (String × String)) (a : CompressedArchive),
      (∀ c ∈ caps, (tsFields c.1).isOk = true) → compress_captures caps = .ok a →
      (a.captures.map Prod.fst).Pairwise (· < ·) ∧
      (∀ ye ∈ a.captures, (ye.2.map Prod.fst).Pairwise (· < ·) ∧
        ∀ me ∈ ye.2, (me.2.map Prod.fst).Pairwise (· < ·)) ∧
      (∀ y m d, treeDay a.captures y m d =
        (caps.filter (fun c => decide (tsYMD c.1 = (y, m, d)))).map
          (fun c => (pyDropFrom c.1 8, idxOf c.2 a.hashes)))) ∧
    compress_captures [("20230101000000", "AAA"), ("20220101000000", "BBB")] =
      .ok { captures := [(2022, [(1, [(1, [("000000", 1)])])]),
                         (2023, [(1, [(1, [("000000", 0)])])])],
            hashes := ["AAA", "BBB"] } := by
  constructor
  · intro caps a hgood hok
    have hday := treeDay_compress caps a hgood hok
    have hspec := compress_spec caps hgood
    rw [hok] at hspec
    have ha := Except.ok.inj hspec
    subst ha
    refine ⟨buildTree_years_pairwise _, fun ye hye => ⟨buildTree_months_pairwise _ ye hye,
      fun me hme => buildTree_days_pairwise _ ye hye me hme⟩, hday⟩
  · rfl

theorem simhash_c3_witness :
    (([(2022, [(1, [(1, [("000000", 1)])])]), (2023, [(1, [(1, [("000000", 0)])])])] :
        List YearEntry).map Prod.fst).Pairwise (· < ·) :=
  (simhash_c3.1 [("20230101000000", "AAA"), ("20220101000000", "BBB")]
    { captures := [(2022, [(1, [(1, [("000000", 1)])])]),
                   (2023, [(1, [(1, [("000000", 0)])])])],
      hashes := ["AAA", "BBB"] } (by decide) rfl).1

/-- C4: for captures all sharing one (year, month, day) — 14-digit timestamps
with equal first eight characters — reconstructing from the compressed archive
yields exactly the original (timestamp, fingerprint) sequence, in order. -/
theorem simhash_c4 (caps : List (String × String)) (a : CompressedArchive)
    (hwf : ∀ c ∈ caps, c.1.data.length = 14 ∧ c.1.data.all isDigitChar = true)
    (hshare : ∀ c ∈ caps, ∀ c' ∈ caps, pySlice c.1 0 8 = pySlice c'.1 0 8)
    (hok : compress_captures caps = .ok a) :
    reconstruct a = caps :=
  reconstruct_single_day caps hwf hshare a hok

theorem simhash_c4_witness :
    reconstruct { captures := [(2023, [(1, [(1, [("000000", 0), ("000001", 1)])])])],
                  hashes := ["AAA", "BBB"] } =
      [("20230101000000", "AAA"), ("20230101000001", "BBB")] :=
  simhash_c4 [("20230101000000", "AAA"), ("20230101000001", "BBB")] _
    (by decide) (by decide) rfl

/-- C5: every hash id appearing in a (suffix, id) pair of the emitted tree is a
valid index into the emitted `hashes` list. -/
theorem simhash_c5 (caps : List (String × String)) (a : CompressedArchive)
    (hok : compress_captures caps = .ok a) :
    ∀ ye ∈ a.captures, ∀ me ∈ ye.2, ∀ de ∈ me.2, ∀ p ∈ de.2, p.2 < a.hashes.length := by
  intro ye hye me hme de hde p hp
  have hgood := compress_ok_good caps a hok
  have hspec := compress_spec caps hgood
  rw [hok] at hspec
  have ha := Except.ok.inj hspec
  subst ha
  obtain ⟨r, hr, rfl⟩ := buildTree_pair_mem _ ye hye me hme de hde p hp
  obtain ⟨c, hc, rfl⟩ := List.mem_map.mp hr
  show idxOf c.2 (firstSeen (caps.map Prod.snd)) < (firstSeen (caps.map Prod.snd)).length
  apply idxOf_lt_length
  rw [mem_firstSeen]
  exact List.mem_map_of_mem Prod.snd hc

theorem simhash_c5_witness :
    (("000000", 0) : String × Nat).2 <
      ({ captures := [(2023, [(1, [(1, [("000000", 0)])])])], hashes := ["AAA"] } :
        CompressedArchive).hashes.length :=
  simhash_c5 [("20230101000000", "AAA")] _ rfl
    (2023, [(1, [(1, [("000000", 0)])])]) (by decide)
    (1, [(1, [("000000", 0)])]) (by decide)
    (1, [("000000", 0)]) (by decide)
    ("000000", 0) (by decide)

/-- C6 counterexample: the timestamp 20231301000000 has the impossible month 13,
yet compression succeeds and returns an archive, so the claim that every
malformed timestamp (wrong length, non-digit, or impossible date fields) makes
compression fail is false on the code. -/
theorem simhash_c6_counterexample :
    compress_captures [("20231301000000", "AAA")] =
      .ok { captures := [(2023, [(13, [(1, [("000000", 0)])])])], hashes := ["AAA"] } := rfl

/-- C6 amended: compression validates nothing beyond applying Python `int()`
to the three date slices ts[0:4], ts[4:6], ts[6:8].  First conjunct: every
capture sequence whose slices are all nonempty digit strings — impossible
calendar fields such as month 13 and length deviations included — compresses
successfully to an archive.  Second conjunct: when every slice is one `int()`
clearly settles (a nonempty digit string, or empty / containing an ASCII
letter, which `int()` always rejects), the call fails exactly at the first
capture with a rejected slice, atomically (an error, no partial archive), with
the ValueError naming the unparseable literal. -/
theorem simhash_c6_amended :
    (∀ caps : List (String × String), (∀ c ∈ caps, digitTs c.1 = true) →
      (compress_captures caps).isOk = true) ∧
    (∀ (caps : List (String × String)) (c : String × String),
      (∀ c' ∈ caps, plainSlices c'.1 = true) →
      caps.find? (fun c => badTs c.1) = some c →
      compress_captures caps = .error (tsErrMsg c.1)) := by
  constructor
  · intro caps h
    rw [compress_spec caps (fun c hc => digitTs_isOk c.1 (h c hc))]
    rfl
  · intro caps c hplain hfind
    have hconv : caps.find? (fun c => badTs c.1) =
        caps.find? (fun c => !(tsFields c.1).isOk) :=
      find?_congr_mem _ _ caps (fun c' hc' => plain_badTs c'.1 (hplain c' hc'))
    exact compress_err caps c (hconv.symm.trans hfind)

theorem simhash_c6_witness :
    (compress_captures [("20231301000000", "AAA")]).isOk = true ∧
    compress_captures [("20230101000000", "AAA"), ("2023a101000000", "BBB")] =
      .error (tsErrMsg "2023a101000000") :=
  ⟨simhash_c6_amended.1 [("20231301000000", "AAA")] (by decide),
   simhash_c6_amended.2 [("20230101000000", "AAA"), ("2023a101000000", "BBB")]
     ("2023a101000000", "BBB") (by decide) (by decide)⟩

/-- C7: invoking fingerprinting with an empty feature mapping yields the error
outcome and never a fingerprint: the per-file result records the error
"No features extracted" with an empty fingerprint string, for every hash
function and width. -/
theorem simhash_c7 (blake2b : String → List Nat) (simhash_size : Nat) :
    processHtmlFeatures blake2b simhash_size [] =
      { feature_count := 0, simhash := "", error := some "No features extracted" } := rfl

/-- C8: serializing a B-bit value as B/8 little-endian bytes and decoding
returns it exactly for every multiple-of-8 width and every value (0 and
all-ones included); and the program encodes the computed fingerprint with
exactly this layout, 64/8 = 8 little-endian bytes. -/
theorem simhash_c8 :
    (∀ B v : Nat, 8 ∣ B → v < 2 ^ B → bytesToNatLE (natToBytesLE v (B / 8)) = v) ∧
    (∀ (blake2b : String → List Nat) (features : List (String × Nat)), features ≠ [] →
      (processHtmlFeatures blake2b 64 features).simhash =
        base64Encode (natToBytesLE (calculate_simhash blake2b features 64) (64 / 8))) := by
  constructor
  · intro B v hB hv
    obtain ⟨k, rfl⟩ := hB
    rw [Nat.mul_div_cancel_left k (by norm_num : 0 < 8)]
    apply bytesLE_roundtrip
    rw [pow_mul] at hv
    norm_num at hv
    exact hv
  · intro blake2b features hne
    have h1 : features.isEmpty = false := by
      cases features with
      | nil => exact absurd rfl hne
      | cons a l => rfl
    have hlt : calculate_simhash blake2b features 64 < 2 ^ 64 :=
      simhashCompute_lt (custom_hash_function blake2b) 64 features
    simp only [processHtmlFeatures, h1, Bool.false_eq_true, if_false, hlt, if_true]

theorem simhash_c8_witness :
    bytesToNatLE (natToBytesLE (2 ^ 64 - 1) (64 / 8)) = 2 ^ 64 - 1 ∧
    bytesToNatLE (natToBytesLE 0 (64 / 8)) = 0 ∧
    (processHtmlFeatures (fun _ => [1]) 64 [("a", 1)]).simhash =
      base64Encode (natToBytesLE (calculate_simhash (fun _ => [1]) [("a", 1)] 64) (64 / 8)) :=
  ⟨simhash_c8.1 64 (2 ^ 64 - 1) (by decide) (by decide),
   simhash_c8.1 64 0 (by decide) (by decide),
   simhash_c8.2 (fun _ => [1]) [("a", 1)] (by decide)⟩

/-- C9: feature sequences that are permutations of each other (the same
multiset of (token, weight) pairs) yield the same fingerprint for any hash
function and width: the accumulation is order-insensitive. -/
theorem simhash_c9 (hashfn : String → Nat) (B : Nat) (f1 f2 : List (String × Nat))
    (hp : f1.Perm f2) : simhashCompute hashfn B f1 = simhashCompute hashfn B f2 := by
  rw [simhashCompute_eq_reference, simhashCompute_eq_reference]
  unfold referenceSimhash
  congr 1
  apply List.map_congr_left
  intro i _
  rw [referenceAcc_perm hashfn hp i]

theorem simhash_c9_witness :
    simhashCompute (fun _ => 3) 4 [("a", 1), ("b", 2)] =
      simhashCompute (fun _ => 3) 4 [("b", 2), ("a", 1)] :=
  simhash_c9 (fun _ => 3) 4 [("a", 1), ("b", 2)] [("b", 2), ("a", 1)]
    (List.Perm.swap ("b", 2) ("a", 1) [])

/-- C10: compressing the empty capture sequence succeeds and returns the archive
with an empty tree and an empty fingerprint dictionary. -/
theorem simhash_c10 :
    compress_captures [] = .ok { captures := [], hashes := [] } := rfl
